import Mathlib

/-!
Verification development for the GrPPI parallel-pattern library
(stream filter, pipeline generator, termination protocol, reduce, map,
iterator helpers).

The embedding models the C++ sources shallowly:
- a tagged item (C++ pair of optional payload and long tag) becomes
  an Option payload paired with an Int tag;
- worker and consumer threads become functions from the list of items
  they pop off a queue to the list of items or values they push or emit;
- the arrival order at a multi-producer queue is quantified over the
  possible interleavings of the producer push sequences;
- machine integers (int, long) are modelled as Int, since none of the
  modelled loops can overflow them on the inputs considered;
- payloads in the modelled runs are trivially copyable C++ values
  (int), for which a moved-from optional keeps its engaged flag and
  its value, so C++ move-assignment is modelled as copying.
-/

namespace grppi

/-- A tagged item: pair of optional payload and Int tag
(C++ pair of optional value and long, stream_filter.h line 55). -/
abbrev Item (V : Type) := Option V × Int

/-- End-of-stream test used by the keep consumer thread
(stream_filter.h line 96: absent payload and tag equal to -1). -/
def isSentinel {V : Type} (it : Item V) : Bool :=
  it.1.isNone && (it.2 == -1)

/-- Count of sentinels in a list of items. -/
def countSentinels {V : Type} (l : List (Item V)) : Nat :=
  l.countP isSentinel

/-- The native generator loop of keep (stream_filter.h lines 146-157):
pushes each generated value with tags k, k+1, ..., then pushes the
absent value with the current tag, then Wm1 sentinels tagged -1
(one per worker thread). -/
def generatorRun {V : Type} (Wm1 : Nat) (k : Int) : List V → List (Item V)
  | [] => (none, k) :: List.replicate Wm1 ((none : Option V), -1)
  | x :: xs => (some x, k) :: generatorRun Wm1 (k + 1) xs

/-- The OpenMP pipeline generator task (omp/pipeline.h lines 347-352):
pushes each generated value with increasing tags and finally the absent
value with the next tag, then stops. No tag -1 item is ever pushed. -/
def ompGeneratorRun {V : Type} (k : Int) : List V → List (Item V)
  | [] => [((none : Option V), k)]
  | x :: xs => (some x, k) :: ompGeneratorRun (k + 1) xs

/-- The tagged value stream produced before end of stream:
values paired with tags k, k+1, ... -/
def taggedFrom {V : Type} (k : Int) : List V → List (Item V)
  | [] => []
  | x :: xs => (some x, k) :: taggedFrom (k + 1) xs

/-- One keep worker thread (stream_filter.h lines 63-80), as a function
of the sequence of items it pops from the generated queue: while the
popped item has a present payload, push the item itself if the
predicate holds and a hole (absent payload, same tag) otherwise; on the
first absent item, push one sentinel (absent payload, tag -1) and stop. -/
def workerRun {V : Type} (pred : V → Bool) : List (Item V) → List (Item V)
  | [] => []
  | it :: rest =>
    match it.1 with
    | some v =>
      (if pred v then ((some v : Option V), it.2) else ((none : Option V), it.2))
        :: workerRun pred rest
    | none => [((none : Option V), -1)]

/-- State of the keep consumer thread (stream_filter.h lines 87-90):
count of finished workers, the out-of-order buffer, the next expected
tag, and the values already passed to the consumer callback. -/
structure ConsumerState (V : Type) where
  doneThreads : Int
  itemBuffer : List (Item V)
  order : Int
  out : List V
deriving Repr, DecidableEq

/-- The stateful predicate scan performed by remove_if over the buffer
(stream_filter.h lines 116-122): the predicate is applied to each
element left to right exactly once; it flags an element whose tag
equals the current order and then increments order. Returns the
flagged elements and the final order. -/
def scanFlags {V : Type} : List (Item V) → Int → List (Item V × Bool) × Int
  | [], ord => ([], ord)
  | it :: rest, ord =>
    if it.2 == ord then
      let p := scanFlags rest (ord + 1)
      ((it, true) :: p.1, p.2)
    else
      let p := scanFlags rest ord
      ((it, false) :: p.1, p.2)

/-- Splits a list at the first element satisfying p:
returns (elements before, the element, elements after). -/
def extractFirst {A : Type} (p : A → Bool) : List A → Option (List A × A × List A)
  | [] => none
  | x :: xs =>
    if p x then some ([], x, xs)
    else
      match extractFirst p xs with
      | none => none
      | some (pre, y, post) => some (x :: pre, y, post)

/-- One execution of stream_filter.h lines 116-128: std::remove_if with
the stateful tag-matching predicate, followed by for_each over the tail
range [itrm, end) and erase of that range.

C++ remove_if mechanics: let r be the index of the first flagged
element (if none, the buffer and order are unchanged and nothing is
consumed). Each later unflagged element is move-assigned forward into
the next write slot starting at index r; remove_if returns the final
write slot itrm = r + (number of kept later elements). Cells at
index itrm and beyond are never written, so with trivially copyable
payloads the consumed and erased tail [itrm, end) holds the original
buffer cells at those positions, not the flagged (released) elements. -/
def bufferPass {V : Type} (s : ConsumerState V) : ConsumerState V :=
  let p := scanFlags s.itemBuffer s.order
  match extractFirst (fun q => q.2) p.1 with
  | none => { s with order := p.2 }
  | some (pre, _, post) =>
    let kept := (post.filter (fun q => !q.2)).map (fun q => q.1)
    let tail := s.itemBuffer.drop (pre.length + kept.length)
    { s with
        itemBuffer := (pre.map (fun q => q.1)) ++ kept,
        order := p.2,
        out := s.out ++ tail.filterMap (fun it => it.1) }

/-- Handling of one non-sentinel item by the consumer thread
(stream_filter.h lines 101-113): if its tag is the expected order,
invoke the consumer callback when the payload is present (a hole at the
expected tag only advances order) and increment order; otherwise append
the item to the buffer. -/
def handleItem {V : Type} (it : Item V) (s : ConsumerState V) : ConsumerState V :=
  if it.2 == s.order then
    { s with out := s.out ++ it.1.toList, order := s.order + 1 }
  else
    { s with itemBuffer := s.itemBuffer ++ [it] }

/-- The consumer thread main loop (stream_filter.h lines 93-131) as a
function of the arrival sequence at the filtered queue. Returns the
final state and whether the loop completed (false means the thread
would block forever on an empty queue). The buffer pass runs after
every handled item and after every counted sentinel except the one
that triggers the break. -/
def consumerLoop {V : Type} (Wm1 : Int) :
    List (Item V) → ConsumerState V → ConsumerState V × Bool
  | [], s => (s, false)
  | it :: rest, s =>
    if s.doneThreads = Wm1 then (s, true)
    else if isSentinel it then
      let s1 : ConsumerState V := { s with doneThreads := s.doneThreads + 1 }
      if s1.doneThreads = Wm1 then (s1, true)
      else consumerLoop Wm1 rest (bufferPass s1)
    else consumerLoop Wm1 rest (bufferPass (handleItem it s))

/-- The final drain loop of the consumer thread (stream_filter.h lines
133-142), fuel-indexed: find the first buffered item with the expected
tag, invoke the callback when its payload is present, erase it and
increment order, until no such item exists. Each iteration erases one
element, so the loop runs at most (buffer length) times; the fuel makes
that bound explicit and keeps the recursion structural. -/
def drainGo {V : Type} : Nat → List (Item V) → Int → List V → List V
  | 0, _, _, out => out
  | fuel + 1, buf, ord, out =>
    match extractFirst (fun it => it.2 == ord) buf with
    | none => out
    | some (pre, it, post) => drainGo fuel (pre ++ post) (ord + 1) (out ++ it.1.toList)

/-- The final drain loop of the consumer thread at its natural fuel. -/
def drainLoop {V : Type} (buf : List (Item V)) (ord : Int) (out : List V) : List V :=
  drainGo buf.length buf ord out

/-- Initial consumer state (stream_filter.h lines 87-90). -/
def initConsumer (V : Type) : ConsumerState V :=
  { doneThreads := 0, itemBuffer := [], order := 0, out := [] }

/-- The whole consumer thread of keep: main loop then, if the loop
completed, the final drain. If the loop blocked, only the values
already delivered are observable. -/
def consumerOutput {V : Type} (Wm1 : Int) (arr : List (Item V)) : List V :=
  let r := consumerLoop Wm1 arr (initConsumer V)
  if r.2 then drainLoop r.1.itemBuffer r.1.order r.1.out else r.1.out

/-- keep with concurrency degree 2 (one worker thread): the single
worker pops the generated queue in FIFO order, so the filtered queue
receives its pushes in that same order, and the consumer loop runs with
W - 1 = 1. -/
def keepSeq {V : Type} (pred : V → Bool) (xs : List V) : List V :=
  consumerOutput 1 (workerRun pred (generatorRun 1 0 xs))

/-- discard (stream_filter.h lines 176-185): calls keep with the
logically negated predicate. -/
def discardSeq {V : Type} (pred : V → Bool) (xs : List V) : List V :=
  keepSeq (fun v => !pred v) xs

/-- Input stream of the order-fidelity failing run: values 0..4. -/
def inputC1 : List Int := [0, 1, 2, 3, 4]

/-- Always-true predicate: keep should deliver every input value. -/
def predTrue : Int → Bool := fun _ => true

/-- Always-false predicate: discard with it should deliver every value. -/
def predFalse : Int → Bool := fun _ => false

/-- A sample worker pop sequence: a worker may pop the queue items
tagged 1, 2, 4 and then the first absent item (pops from the shared
FIFO queue are claimed per item, so any order-preserving split of the
queue among the workers is a legal pop assignment). -/
def qA : List (Item Int) := [(some 1, 1), (some 2, 2), (some 4, 4), (none, 5)]

/-- A sample worker pop sequence for the sibling worker: the items
tagged 0 and 3 and then one tag -1 sentinel. -/
def qB : List (Item Int) := [(some 0, 0), (some 3, 3), (none, -1)]

/-- State of one keep worker thread in the operational model: ready to
pop, holding a popped item not yet pushed (the loop body between its
pop and its push, stream_filter.h lines 67-76), or exited. A worker
holds at most one item in flight, because the loop pushes each popped
item before the next pop. -/
inductive WState (V : Type)
  | idle : WState V
  | holding : Item V → WState V
  | finished : WState V
deriving Repr, DecidableEq

/-- Operational state of the keep stage: the remaining FIFO generated
queue, the per-worker states, and the arrival sequence accumulated at
the filtered queue. The generated queue starts pre-filled: the
generator pushes its items in program order, and scheduling the whole
generator before the first worker pop is itself a legal execution, so
every run of this model is a legal execution of keep. -/
structure KeepNet (V : Type) where
  genQueue : List (Item V)
  workers : List (WState V)
  arrival : List (Item V)
deriving Repr, DecidableEq

/-- A scheduler action: worker w pops the generated queue head, or
worker w performs the push its loop body owes for the held item. -/
inductive KAction
  | pop (w : Nat)
  | push (w : Nat)
deriving Repr, DecidableEq

/-- One scheduled step of the keep stage (stream_filter.h lines 63-80).
A pop takes the FIFO head and is enabled only for an idle worker; a
push is enabled only for a holding worker and emits the predicate
result for a present payload (the item itself or a hole with the same
tag) or the tag -1 sentinel for an absent payload, after which the
worker exits. A disabled action yields none: the step relation admits
only legal executions. -/
def keepStep {V : Type} (pred : V → Bool) (s : KeepNet V) :
    KAction → Option (KeepNet V)
  | .pop w =>
    match s.workers[w]? with
    | some WState.idle =>
      match s.genQueue with
      | [] => none
      | it :: rest =>
        some { s with genQueue := rest,
                      workers := s.workers.set w (WState.holding it) }
    | _ => none
  | .push w =>
    match s.workers[w]? with
    | some (WState.holding it) =>
      match it.1 with
      | some v =>
        some { s with workers := s.workers.set w WState.idle,
                      arrival := s.arrival ++
                        [if pred v then ((some v : Option V), it.2)
                         else ((none : Option V), it.2)] }
      | none =>
        some { s with workers := s.workers.set w WState.finished,
                      arrival := s.arrival ++ [((none : Option V), -1)] }
    | _ => none

/-- Run a schedule of actions; none as soon as an action is illegal. -/
def keepRun {V : Type} (pred : V → Bool) (s : KeepNet V) :
    List KAction → Option (KeepNet V)
  | [] => some s
  | a :: acts =>
    match keepStep pred s a with
    | none => none
    | some s2 => keepRun pred s2 acts

/-- Initial operational state of keep at concurrency degree W: the
generated queue as produced by the generator loop and W - 1 idle
workers. -/
def keepInit {V : Type} (xs : List V) (W : Nat) : KeepNet V :=
  { genQueue := generatorRun (W - 1) 0 xs,
    workers := List.replicate (W - 1) WState.idle,
    arrival := [] }

/-- A legal schedule of keep at concurrency degree 4 on the input
values 0..4: worker 0 pops and pushes tags 0, 2, 4 while worker 1
holds tag 1 and worker 2 holds tag 3 in flight; the held items are
then pushed, and the three workers pop the end markers and push their
sentinels. -/
def schedC1 : List KAction :=
  [.pop 0, .push 0, .pop 1, .pop 0, .push 0, .pop 2, .pop 0, .push 0,
   .push 1, .push 2, .pop 0, .push 0, .pop 1, .push 1, .pop 2, .push 2]

/-- The arrival sequence at the filtered queue produced by schedC1:
tags 0, 2, 4, 1, 3 and then the three worker sentinels. -/
def arrB : List (Item Int) :=
  [(some 0, 0), (some 2, 2), (some 4, 4), (some 1, 1), (some 3, 3),
   (none, -1), (none, -1), (none, -1)]

/-- A legal schedule of keep at concurrency degree 3 on the empty
input: each of the two workers pops an absent item and pushes its own
sentinel. -/
def schedC3 : List KAction := [.pop 0, .push 0, .pop 1, .push 1]

/-- A permutation of the tagged items 0..4 followed by one sentinel,
fed directly to the reorder-buffer consumer logic (payload = tag). -/
def permArr : List (Item Int) :=
  [(some 1, 1), (some 2, 2), (some 4, 4), (some 0, 0), (some 3, 3), (none, -1)]

/-- The FastFlow execution policy (ff/parallel_execution_ff.h lines
43-167): an int concurrency degree and a bool ordering flag. -/
structure parallel_execution_ff where
  concurrency_degree_ : Int
  ordering_ : Bool
deriving Repr, DecidableEq

/-- set_concurrency_degree (ff/parallel_execution_ff.h lines 75-77):
stores the given degree unchanged; the function is noexcept and total,
with no validation of any kind. -/
def set_concurrency_degree (ex : parallel_execution_ff) (degree : Int) :
    parallel_execution_ff :=
  { ex with concurrency_degree_ := degree }

/-- concurrency_degree accessor (ff/parallel_execution_ff.h lines 82-84). -/
def concurrency_degree (ex : parallel_execution_ff) : Int :=
  ex.concurrency_degree_

/-- enable_ordering (ff/parallel_execution_ff.h line 89). -/
def enable_ordering (ex : parallel_execution_ff) : parallel_execution_ff :=
  { ex with ordering_ := true }

/-- disable_ordering (ff/parallel_execution_ff.h line 94). -/
def disable_ordering (ex : parallel_execution_ff) : parallel_execution_ff :=
  { ex with ordering_ := false }

/-- is_ordered accessor (ff/parallel_execution_ff.h line 99). -/
def is_ordered (ex : parallel_execution_ff) : Bool :=
  ex.ordering_

/-- Number of worker threads spawned by the native keep
(stream_filter.h lines 62, for i from 0 while i < concurrency_degree()
minus 1): max(W - 1, 0) workers; no rejection path exists for any W. -/
def nativeWorkerCount (W : Int) : Nat :=
  (W - 1).toNat

/-- Sentinels pushed by the OpenMP farm stage (omp/pipeline.h lines
268-272): each of the W workers increments the shared atomic
done_threads counter (the fetch-add result is discarded) and then
separately re-reads the counter in the comparison with W; a worker
pushes the terminal sentinel onto the output queue iff its re-read
returns W. Given obs, the list of the W re-read values (the value of
the counter at each worker's re-read), the number of sentinels pushed
is the number of re-reads returning W. Because the re-read is a
separate load, every worker whose re-read happens after the last
increment observes W, so the count can exceed one. -/
def ompFarmSentinelCount (W : Nat) (obs : List Nat) : Nat :=
  obs.countP (fun k => k == W)

/-- Splits a list into consecutive chunks of the given sizes. -/
def splitSizes {A : Type} : List Nat → List A → List (List A)
  | [], _ => []
  | n :: ns, xs => xs.take n :: splitSizes ns (xs.drop n)

/-- Modelled from the spec: the partition/fold/combine semantics of
ff::ParallelForReduce used by parallel_execution_ff::reduce
(ff/parallel_execution_ff.h lines 222-239) live in the external
FastFlow library and are not part of src/. Per spec section 4.7, the
index range is partitioned into consecutive chunks, one per worker;
each worker folds its chunk left to right starting from the identity
value (the body lambda at lines 232-234 does value = combine(value,
element)); the partial results are then combined into the result seeded
with the identity (the final-reduce lambda at line 235 does result =
combine(result, partial)). -/
def ffReduce {A : Type} (identity : A) (comb : A → A → A)
    (chunks : List (List A)) : A :=
  (chunks.map (fun c => c.foldl comb identity)).foldl comb identity

/-- An input iterator over a sequence: the sequence and a position
(shallow model of a C++ forward iterator). -/
structure Iter (V : Type) where
  seq : List V
  idx : Nat
deriving Repr, DecidableEq

/-- Dereference: the value at the current position, when valid. -/
def Iter.deref {V : Type} (it : Iter V) : Option V :=
  it.seq[it.idx]?

/-- Post-increment: advance the position by one. -/
def Iter.inc {V : Type} (it : Iter V) : Iter V :=
  { it with idx := it.idx + 1 }

/-- Dereference every iterator in the pack: the values currently
referenced, or none when some iterator is invalid (undefined behaviour
in the C++). -/
def derefAll {V : Type} : List (Iter V) → Option (List V)
  | [] => some []
  | it :: rest =>
    match it.deref, derefAll rest with
    | some v, some vs => some (v :: vs)
    | _, _ => none

/-- apply_deref_increment (common/iterator.h lines 26-33 and 57-65):
applies f to the values currently referenced by the iterators (the
expression f(*get(iterators)++...)) and post-increments every iterator
in the tuple. The C++ tuple of iterators is modelled as a list of
iterators over a common value type; the result is the callable result
(none when some iterator is invalid, which is undefined behaviour in
the C++) together with the advanced iterators. -/
def apply_deref_increment {V R : Type} (f : List V → R) (its : List (Iter V)) :
    Option R × List (Iter V) :=
  ((derefAll its).map f, its.map Iter.inc)

/-- One body execution of the TBB map (tbb/map.h lines 58-61 and
89-92): for index i, write the computed value for i into position
first_out + i of the output sequence. The computed value is abstracted
as rhs i (op applied to the i-th input element or elements); a none rhs
(an out-of-range input read, undefined behaviour in the C++) writes
nothing. List.set beyond the end of the list is the identity, matching
the precondition that the output range must be valid. -/
def tbbMapBody {B : Type} (rhs : Nat → Option B) (firstOut : Nat)
    (out : List B) (i : Nat) : List B :=
  match rhs i with
  | some b => out.set (firstOut + i) b
  | none => out

/-- tbb::parallel_for over the index range [0, n) running the map body
once per index; the canonical (ascending) execution order. The theorem
tbbMapRun_perm shows any execution order gives the same result. -/
def tbbMapRun {B : Type} (rhs : Nat → Option B) (firstOut n : Nat)
    (out : List B) : List B :=
  (List.range n).foldl (tbbMapBody rhs firstOut) out

/-- The unary TBB map (tbb/map.h lines 49-63): n = last - first indices,
rhs i = op applied to the element at first + i. Iterators into the
input and output sequences are modelled as base offsets. -/
def tbbMap {A B : Type} (inp : List A) (first last_ firstOut : Nat)
    (op : A → B) (out : List B) : List B :=
  tbbMapRun (fun i => (inp[first + i]?).map op) firstOut (last_ - first) out

/-- The variadic TBB map at arity two (tbb/map.h lines 78-95): rhs i =
op applied to the elements at first + i and first2 + i of the two input
sequences. -/
def tbbMap2 {A A2 B : Type} (inp : List A) (inp2 : List A2)
    (first last_ first2 firstOut : Nat) (op : A → A2 → B)
    (out : List B) : List B :=
  tbbMapRun
    (fun i =>
      match inp[first + i]?, inp2[first2 + i]? with
      | some a, some a2 => some (op a a2)
      | _, _ => none)
    firstOut (last_ - first) out

/-! ## Theorems -/

/-- The buffer pass is the identity on a state with an empty buffer. -/
theorem bufferPass_empty {V : Type} (s : ConsumerState V) (h : s.itemBuffer = []) :
    bufferPass s = s := by
  cases s
  simp_all [bufferPass, scanFlags, extractFirst]

/-- In-order run of the consumer loop with one worker: when the items
arrive with consecutive tags k, k+1, ... (which is what the single
worker pushes), every item is handled directly, the buffer stays empty
and the delivered values are exactly the predicate-satisfying inputs in
order. -/
theorem consumerLoop_inorder {V : Type} (pred : V → Bool) (xs : List V)
    (k : Int) (hk : 0 ≤ k) (acc : List V) :
    consumerLoop 1 (workerRun pred (generatorRun 1 k xs))
      { doneThreads := 0, itemBuffer := [], order := k, out := acc } =
    ({ doneThreads := 1, itemBuffer := [], order := k + xs.length,
       out := acc ++ xs.filter pred }, true) := by
  induction xs generalizing k acc with
  | nil =>
    simp [generatorRun, workerRun, consumerLoop, isSentinel]
  | cons x xs ih =>
    have hstep : ∀ it : Item V, it.2 = k → isSentinel it = false →
        consumerLoop 1 (it :: workerRun pred (generatorRun 1 (k + 1) xs))
          { doneThreads := 0, itemBuffer := [], order := k, out := acc } =
        consumerLoop 1 (workerRun pred (generatorRun 1 (k + 1) xs))
          { doneThreads := 0, itemBuffer := [], order := k + 1,
            out := acc ++ it.1.toList } := by
      intro it h2 hs
      simp only [consumerLoop, hs, Bool.false_eq_true, if_false]
      rw [if_neg (by norm_num)]
      have hh : handleItem it
          { doneThreads := 0, itemBuffer := [], order := k, out := acc } =
          { doneThreads := 0, itemBuffer := [], order := k + 1,
            out := acc ++ it.1.toList } := by
        simp [handleItem, h2]
      rw [hh, bufferPass_empty _ rfl]
    cases hp : pred x
    case false =>
      have hw : workerRun pred (generatorRun 1 k (x :: xs)) =
          ((none : Option V), k) :: workerRun pred (generatorRun 1 (k + 1) xs) := by
        simp [generatorRun, workerRun, hp]
      rw [hw, hstep ((none : Option V), k) rfl (by simp [isSentinel]; omega)]
      rw [ih (k + 1) (by omega) _]
      simp [List.filter_cons, hp]
      omega
    case true =>
      have hw : workerRun pred (generatorRun 1 k (x :: xs)) =
          ((some x : Option V), k) :: workerRun pred (generatorRun 1 (k + 1) xs) := by
        simp [generatorRun, workerRun, hp]
      rw [hw, hstep ((some x : Option V), k) rfl (by simp [isSentinel])]
      rw [ih (k + 1) (by omega) _]
      simp [List.filter_cons, hp]
      omega

/-- keep with one worker delivers exactly the predicate-satisfying
values in input order. -/
theorem keepSeq_eq_filter {V : Type} (pred : V → Bool) (xs : List V) :
    keepSeq pred xs = xs.filter pred := by
  unfold keepSeq consumerOutput
  rw [show initConsumer V =
    { doneThreads := 0, itemBuffer := [], order := 0, out := [] } from rfl]
  rw [consumerLoop_inorder pred xs 0 le_rfl []]
  simp [drainLoop, drainGo]

/-- A worker pushes a hole carrying the original tag for every input
value failing the predicate: position i of the worker output is
(absent, k + i) whenever input value i fails the predicate. -/
theorem workerRun_hole {V : Type} (pred : V → Bool) (Wm1 : Nat) (k : Int)
    (xs : List V) (i : Nat) (x : V) (hx : xs[i]? = some x)
    (hp : pred x = false) :
    (workerRun pred (generatorRun Wm1 k xs))[i]? =
      some ((none : Option V), k + i) := by
  induction xs generalizing k i with
  | nil => simp at hx
  | cons y ys ih =>
    cases i with
    | zero =>
      simp only [List.getElem?_cons_zero, Option.some.injEq] at hx
      subst hx
      simp [generatorRun, workerRun, hp]
    | succ j =>
      simp only [List.getElem?_cons_succ] at hx
      have harith : k + ((j : Int) + 1) = (k + 1) + j := by ring
      simp only [generatorRun, workerRun, List.getElem?_cons_succ]
      rw [ih (k + 1) j hx]
      congr 2
      push_cast
      ring

/-- C4: filter hole semantics. In keep, an item whose payload fails the
predicate is pushed downstream as a hole: absent payload with the
original non-terminal tag (position i of the worker output carries tag
i, and i is never -1). The downstream consumer, on a hole at the
expected tag, advances the expected order without invoking the consumer
callback; consequently (single-worker run shown) the delivered values
are exactly the predicate-satisfying inputs, and no hole is ever
delivered. -/
theorem keep_hole_semantics {V : Type} (pred : V → Bool) (xs : List V) :
    (∀ (i : Nat) (x : V), xs[i]? = some x → pred x = false →
      (workerRun pred (generatorRun 1 0 xs))[i]? =
        some ((none : Option V), (i : Int)) ∧ (i : Int) ≠ -1) ∧
    (∀ (s : ConsumerState V) (t : Int), t = s.order →
      handleItem ((none : Option V), t) s = { s with order := s.order + 1 }) ∧
    keepSeq pred xs = xs.filter pred := by
  refine ⟨?_, ?_, keepSeq_eq_filter pred xs⟩
  · intro i x hx hp
    refine ⟨?_, by omega⟩
    have h := workerRun_hole pred 1 0 xs i x hx hp
    simpa using h
  · intro s t ht
    cases s
    simp_all [handleItem]

/-- Witness for C4 at the spec example: predicate even, inputs 1..10,
the hole at position 0 (value 1 fails the predicate), a hole handled at
expected order 0, and the delivered sequence [2, 4, 6, 8, 10]. -/
theorem keep_hole_semantics_witness :
    ((workerRun (fun v => v % 2 == 0)
        (generatorRun 1 0 [1, 2, 3, 4, 5, 6, 7, 8, 9, (10 : Int)]))[0]? =
      some ((none : Option Int), (0 : Int)) ∧ ((0 : Nat) : Int) ≠ -1) ∧
    (handleItem ((none : Option Int), 0) (initConsumer Int) =
      { initConsumer Int with order := (initConsumer Int).order + 1 }) ∧
    keepSeq (fun v => v % 2 == 0) [1, 2, 3, 4, 5, 6, 7, 8, 9, (10 : Int)] =
      [2, 4, 6, 8, 10] := by
  have h := keep_hole_semantics (fun v => v % 2 == 0)
    [1, 2, 3, 4, 5, 6, 7, 8, 9, (10 : Int)]
  refine ⟨h.1 0 1 (by decide) (by decide), h.2.1 (initConsumer Int) 0 (by decide), ?_⟩
  rw [h.2.2]
  decide

/-- C7 amended: discard calls keep with the logically negated predicate
(identical behaviour by construction, mirroring stream_filter.h lines
176-185), and in the single-worker configuration the delivered sequence
is exactly the values for which the predicate is false, in input order.
With three or more workers (concurrency degree at least 4) the
consumer reorder slip of C1 can drop or duplicate values under some
schedules, so the delivered-set equality does not hold for every
policy. -/
theorem discard_keep_duality {V : Type} (pred : V → Bool) (xs : List V) :
    discardSeq pred xs = keepSeq (fun v => !pred v) xs ∧
    discardSeq pred xs = xs.filter (fun v => !pred v) :=
  ⟨rfl, keepSeq_eq_filter _ xs⟩

/-- A worker whose pop sequence contains an absent item, and whose
value items never carry tag -1, pushes exactly one sentinel. -/
theorem workerRun_countSentinels {V : Type} (pred : V → Bool)
    (inp : List (Item V))
    (hv : ∀ it ∈ inp, it.1.isSome → it.2 ≠ -1)
    (ha : ∃ it ∈ inp, it.1 = none) :
    countSentinels (workerRun pred inp) = 1 := by
  induction inp with
  | nil => simp at ha
  | cons it rest ih =>
    match hit : it.1 with
    | some v =>
      have htag : it.2 ≠ -1 := hv it (by simp) (by simp [hit])
      have hrest : ∃ jt ∈ rest, jt.1 = none := by
        rcases ha with ⟨jt, hj, hjn⟩
        rcases List.mem_cons.mp hj with h | h
        · subst h; rw [hit] at hjn; cases hjn
        · exact ⟨jt, h, hjn⟩
      have hv2 : ∀ jt ∈ rest, jt.1.isSome → jt.2 ≠ -1 :=
        fun jt hj => hv jt (List.mem_cons_of_mem _ hj)
      have hhead : isSentinel
          (if pred v then ((some v : Option V), it.2)
           else ((none : Option V), it.2)) = false := by
        by_cases hp : pred v <;> simp [hp, isSentinel, htag]
      simp only [workerRun, hit, countSentinels, List.countP_cons, hhead,
        Bool.false_eq_true, if_false, add_zero]
      exact ih hv2 hrest
    | none =>
      simp [workerRun, hit, countSentinels, List.countP_cons, isSentinel]

/-- Joining the outputs of a list of workers, each satisfying the
sentinel preconditions, yields as many sentinels as workers. -/
theorem flatten_workerRun_countSentinels {V : Type} (pred : V → Bool)
    (ins : List (List (Item V)))
    (hv : ∀ inp ∈ ins, (∀ it ∈ inp, it.1.isSome → it.2 ≠ -1) ∧
      ∃ it ∈ inp, it.1 = none) :
    countSentinels (ins.map (workerRun pred)).flatten = ins.length := by
  induction ins with
  | nil => simp [countSentinels]
  | cons inp rest ih =>
    have h1 := hv inp (by simp)
    have h2 : ∀ jnp ∈ rest, (∀ it ∈ jnp, it.1.isSome → it.2 ≠ -1) ∧
        ∃ it ∈ jnp, it.1 = none := fun jnp hj => hv jnp (List.mem_cons_of_mem _ hj)
    simp only [List.map_cons, List.flatten_cons, countSentinels, List.countP_append]
    rw [show List.countP isSentinel (workerRun pred inp) =
      countSentinels (workerRun pred inp) from rfl]
    rw [workerRun_countSentinels pred inp h1.1 h1.2]
    rw [show List.countP isSentinel (rest.map (workerRun pred)).flatten =
      countSentinels (rest.map (workerRun pred)).flatten from rfl]
    rw [ih h2]
    simp
    omega

/-- If each re-read value dominates the rank of the corresponding
increment (its own increment precedes the re-read) and the top rank W
occurs among the ranks, then some re-read returned W: the worker whose
increment was the last one re-reads a counter that already holds W. -/
theorem forall2_mem_top (W : Nat) (p obs : List Nat)
    (hrel : List.Forall₂ (fun r o => r ≤ o ∧ o ≤ W) p obs) :
    W ∈ p → W ∈ obs := by
  induction hrel with
  | nil => intro h; simp at h
  | @cons r o ps os hro _ ih =>
    intro hmem
    rcases List.mem_cons.mp hmem with h | h
    · have ho : o = W := by omega
      rw [ho]
      exact List.mem_cons_self _ _
    · exact List.mem_cons_of_mem _ (ih h)

/-- C3 amended: with W = concurrency degree at least 2, the native keep
filter stage pushes exactly W - 1 sentinels onto its output queue (one
per worker replica, each exiting on an absent-payload item), for every
arrival order of the worker pushes; its consumer terminates after
counting W - 1 sentinels. The OpenMP farm stage pushes at least one
and at most W sentinels: each worker increments the shared atomic
done_threads counter, discarding the fetch-add result, and then
separately re-reads the counter (omp/pipeline.h lines 269-270),
pushing a sentinel iff the re-read returns W; p lists the increment
ranks (a permutation of 1..W) and obs the corresponding re-read
values, each at least the own rank (the own increment precedes the
re-read) and at most W. The worker whose increment was last always
re-reads W, so at least one sentinel is pushed, but every worker whose
re-read happens after the last increment also pushes, so the count can
exceed one (see the counterexample). -/
theorem stage_sentinel_counts {V : Type} (W : Nat) (hW : 2 ≤ W)
    (pred : V → Bool) (ins : List (List (Item V)))
    (hlen : ins.length = W - 1)
    (hv : ∀ inp ∈ ins, (∀ it ∈ inp, it.1.isSome → it.2 ≠ -1) ∧
      ∃ it ∈ inp, it.1 = none)
    (arr : List (Item V)) (harr : arr.Perm (ins.map (workerRun pred)).flatten)
    (p obs : List Nat) (hperm : p.Perm (List.range' 1 W))
    (hrel : List.Forall₂ (fun r o => r ≤ o ∧ o ≤ W) p obs) :
    countSentinels arr = W - 1 ∧
    1 ≤ ompFarmSentinelCount W obs ∧
    ompFarmSentinelCount W obs ≤ W := by
  refine ⟨?_, ?_, ?_⟩
  · rw [show countSentinels arr = List.countP isSentinel arr from rfl]
    rw [harr.countP_eq]
    rw [show List.countP isSentinel (ins.map (workerRun pred)).flatten =
      countSentinels (ins.map (workerRun pred)).flatten from rfl]
    rw [flatten_workerRun_countSentinels pred ins hv, hlen]
  · have hmemp : W ∈ p := hperm.mem_iff.mpr (List.mem_range'_1.mpr (by omega))
    have hmemo : W ∈ obs := forall2_mem_top W p obs hrel hmemp
    exact List.countP_pos_iff.mpr ⟨W, hmemo, by simp⟩
  · have h1 := List.countP_le_length (fun k => k == W) (l := obs)
    have h2 : obs.length = W := by
      have hl1 := hrel.length_eq
      have hl2 := hperm.length_eq
      simp [List.length_range'] at hl2
      omega
    rw [show ompFarmSentinelCount W obs = obs.countP (fun k => k == W) from rfl]
    omega

/-- Witness for C3 amended at W = 3: worker pop sequences qA and qB
(a legal order-preserving split of the FIFO queue pops), arrival equal
to the concatenation of the worker outputs, increment ranks 2, 3, 1
with re-read values 2, 3, 3 (the third worker re-reads after the last
increment, so two sentinels are pushed: within the proven bounds). -/
theorem stage_sentinel_counts_witness :
    countSentinels ((([qA, qB] : List (List (Item Int))).map
      (workerRun predTrue)).flatten) = 3 - 1 ∧
    1 ≤ ompFarmSentinelCount 3 [2, 3, 3] ∧
    ompFarmSentinelCount 3 [2, 3, 3] ≤ 3 := by
  refine stage_sentinel_counts 3 (by decide) predTrue [qA, qB] (by decide)
    (by decide) (([qA, qB].map (workerRun predTrue)).flatten) (List.Perm.refl _)
    [2, 3, 1] [2, 3, 3] (by decide) ?_
  refine List.Forall₂.cons (by decide) ?_
  refine List.Forall₂.cons (by decide) ?_
  exact List.Forall₂.cons (by decide) List.Forall₂.nil

/-- Closed form of the native generator loop: the tagged values, then
the absent value carrying the running tag, then Wm1 tag -1 sentinels. -/
theorem generatorRun_eq {V : Type} (Wm1 : Nat) (xs : List V) (k : Int) :
    generatorRun Wm1 k xs =
      taggedFrom k xs ++ [((none : Option V), k + xs.length)] ++
        List.replicate Wm1 ((none : Option V), -1) := by
  induction xs generalizing k with
  | nil => simp [generatorRun, taggedFrom]
  | cons x xs ih =>
    simp only [generatorRun, taggedFrom, ih (k + 1), List.cons_append,
      List.length_cons]
    congr 3
    push_cast
    ring

/-- Closed form of the OpenMP generator task: the tagged values, then
the absent value carrying the running tag; no tag -1 item at all. -/
theorem ompGeneratorRun_eq {V : Type} (xs : List V) (k : Int) :
    ompGeneratorRun k xs =
      taggedFrom k xs ++ [((none : Option V), k + xs.length)] := by
  induction xs generalizing k with
  | nil => simp [ompGeneratorRun, taggedFrom]
  | cons x xs ih =>
    simp only [ompGeneratorRun, taggedFrom, ih (k + 1), List.cons_append,
      List.length_cons]
    congr 3
    push_cast
    ring

/-- Every item of the tagged value stream has a present payload and a
tag at least k. -/
theorem taggedFrom_mem {V : Type} (xs : List V) (k : Int) :
    ∀ it ∈ taggedFrom k xs, k ≤ it.2 ∧ it.1 ≠ none := by
  induction xs generalizing k with
  | nil => simp [taggedFrom]
  | cons x xs ih =>
    intro it hit
    rcases List.mem_cons.mp hit with h | h
    · subst h; simp
    · have := ih (k + 1) it h
      exact ⟨by omega, this.2⟩

/-- Position i of the tagged value stream holds value i with tag k+i. -/
theorem taggedFrom_get {V : Type} (xs : List V) (k : Int) (i : Nat) (x : V)
    (hx : xs[i]? = some x) :
    (taggedFrom k xs)[i]? = some ((some x : Option V), k + i) := by
  induction xs generalizing k i with
  | nil => simp at hx
  | cons y ys ih =>
    cases i with
    | zero =>
      simp only [List.getElem?_cons_zero, Option.some.injEq] at hx
      subst hx
      simp [taggedFrom]
    | succ j =>
      simp only [List.getElem?_cons_succ] at hx
      simp only [taggedFrom, List.getElem?_cons_succ]
      rw [ih (k + 1) j hx]
      congr 2
      push_cast
      ring

/-- The tags of the tagged value stream are strictly increasing. -/
theorem taggedFrom_pairwise {V : Type} (xs : List V) (k : Int) :
    ((taggedFrom k xs).map Prod.snd).Pairwise (· < ·) := by
  induction xs generalizing k with
  | nil => simp [taggedFrom]
  | cons x xs ih =>
    simp only [taggedFrom, List.map_cons]
    refine List.Pairwise.cons ?_ (ih (k + 1))
    intro t ht
    rcases List.mem_map.mp ht with ⟨it, hit, rfl⟩
    have := (taggedFrom_mem xs (k + 1) it hit).1
    omega

/-- C5 amended: the generator assigns tags 0, 1, 2, ... to the values
of the stream: strictly increasing from 0, never reused, never -1, and
position i carries value i with tag i. On end of stream the native
generator appends the absent value carrying the running tag N (the
stream length, not -1) and then W - 1 sentinels tagged -1, one per
worker; the OpenMP generator appends only the absent value tagged N and
no tag -1 item at all. -/
theorem generator_tag_invariants {V : Type} (xs : List V) (Wm1 : Nat) :
    generatorRun Wm1 0 xs =
      taggedFrom 0 xs ++ [((none : Option V), (xs.length : Int))] ++
        List.replicate Wm1 ((none : Option V), -1) ∧
    ompGeneratorRun 0 xs =
      taggedFrom 0 xs ++ [((none : Option V), (xs.length : Int))] ∧
    ((taggedFrom 0 xs).map Prod.snd).Pairwise (· < ·) ∧
    (∀ it ∈ taggedFrom 0 xs, 0 ≤ it.2 ∧ it.1 ≠ none) ∧
    (∀ (i : Nat) (x : V), xs[i]? = some x →
      (taggedFrom 0 xs)[i]? = some ((some x : Option V), (i : Int))) := by
  refine ⟨?_, ?_, ?_, taggedFrom_mem xs 0, ?_⟩
  · have h := generatorRun_eq Wm1 xs 0
    simpa using h
  · have h := ompGeneratorRun_eq xs 0
    simpa using h
  · exact taggedFrom_pairwise xs 0
  · intro i x hx
    have h := taggedFrom_get xs 0 i x hx
    simpa using h

/-- Witness for C5 amended at the stream [10, 20] with one worker:
instantiates the positional clauses at i = 1. -/
theorem generator_tag_invariants_witness :
    (generatorRun 1 0 [(10 : Int), 20] =
      taggedFrom 0 [(10 : Int), 20] ++ [((none : Option Int), (2 : Int))] ++
        List.replicate 1 ((none : Option Int), -1)) ∧
    (taggedFrom 0 [(10 : Int), 20])[1]? =
      some ((some 20 : Option Int), (1 : Int)) := by
  have h := generator_tag_invariants [(10 : Int), 20] 1
  exact ⟨by simpa using h.1, h.2.2.2.2 1 20 (by decide)⟩

/-- C6 amended: set_concurrency_degree stores the given degree
unchanged, with no validation and no error path, and leaves the
ordering flag alone; a policy may therefore hold any degree, including
values below 1, and the native keep invoked with degree at most 1
spawns zero worker threads, so its consumer thread receives nothing
(no fail-fast rejection occurs anywhere). -/
theorem set_concurrency_degree_no_validation (ex : parallel_execution_ff)
    (d : Int) :
    concurrency_degree (set_concurrency_degree ex d) = d ∧
    is_ordered (set_concurrency_degree ex d) = is_ordered ex ∧
    (d ≤ 1 → nativeWorkerCount d = 0 ∧
      consumerOutput (d - 1) ([] : List (Item Int)) = []) := by
  refine ⟨rfl, rfl, ?_⟩
  intro hd
  refine ⟨?_, rfl⟩
  simp only [nativeWorkerCount]
  omega

/-- Witness for C6 amended at degree 0. -/
theorem set_concurrency_degree_no_validation_witness :
    concurrency_degree (set_concurrency_degree ⟨4, true⟩ 0) = 0 ∧
    is_ordered (set_concurrency_degree ⟨4, true⟩ 0) = is_ordered ⟨4, true⟩ ∧
    (nativeWorkerCount 0 = 0 ∧
      consumerOutput ((0 : Int) - 1) ([] : List (Item Int)) = []) := by
  have h := set_concurrency_degree_no_validation ⟨4, true⟩ 0
  exact ⟨h.1, h.2.1, h.2.2 (by decide)⟩

/-- Splitting a list into chunks of sizes summing to its length and
joining the chunks gives back the list. -/
theorem splitSizes_flatten {A : Type} (sizes : List Nat) (xs : List A)
    (h : sizes.sum = xs.length) :
    (splitSizes sizes xs).flatten = xs := by
  induction sizes generalizing xs with
  | nil =>
    simp only [List.sum_nil] at h
    cases xs with
    | nil => rfl
    | cons y ys => simp at h
  | cons n ns ih =>
    simp only [List.sum_cons] at h
    simp only [splitSizes, List.flatten_cons]
    rw [ih (xs.drop n) (by simp [List.length_drop]; omega)]
    exact List.take_append_drop n xs

/-- Folding addition from an accumulator adds the list sum. -/
theorem foldl_add_eq_sum (l : List Nat) (a : Nat) :
    l.foldl (fun u v => u + v) a = a + l.sum := by
  induction l generalizing a with
  | nil => simp
  | cons x xs ih => simp [ih (a + x), List.sum_cons]; omega

/-- Twice the sum of 1..N is N * (N + 1). -/
theorem sum_range'_one_mul_two (N : Nat) :
    (List.range' 1 N).sum * 2 = N * (N + 1) := by
  induction N with
  | zero => rfl
  | succ n ih =>
    rw [List.range'_concat]
    simp only [List.sum_append, List.sum_cons, List.sum_nil]
    ring_nf
    ring_nf at ih
    omega

/-- C8: the reduce of the FastFlow policy partitions the index range
into consecutive chunks, folds each chunk from the identity with the
combiner and combines the partials into the identity-seeded result;
over the sequence 1..N with identity 0 and combiner +, every
partitioning (any chunk sizes summing to N, hence any concurrency
degree) yields N * (N + 1) / 2. -/
theorem ffReduce_gauss (N : Nat) (sizes : List Nat) (h : sizes.sum = N) :
    ffReduce 0 (fun u v => u + v) (splitSizes sizes (List.range' 1 N)) =
      N * (N + 1) / 2 := by
  have hlen : sizes.sum = (List.range' 1 N).length := by
    simp [List.length_range', h]
  have hsum : ∀ chunks : List (List Nat),
      (chunks.map (fun c => c.foldl (fun u v => u + v) 0)).foldl
        (fun u v => u + v) 0 = chunks.flatten.sum := by
    intro chunks
    induction chunks with
    | nil => rfl
    | cons c cs ihc =>
      simp only [List.map_cons, List.foldl_cons, List.flatten_cons, List.sum_append]
      rw [foldl_add_eq_sum, foldl_add_eq_sum, ihc.symm, foldl_add_eq_sum]
      omega
  unfold ffReduce
  rw [hsum, splitSizes_flatten sizes _ hlen]
  have h2 := sum_range'_one_mul_two N
  omega

/-- Witness for C8 at N = 10 with chunk sizes 4, 3, 3: the reduce
yields 55. -/
theorem ffReduce_gauss_witness :
    ffReduce 0 (fun u v => u + v)
      (splitSizes [4, 3, 3] (List.range' 1 10)) = 10 * (10 + 1) / 2 :=
  ffReduce_gauss 10 [4, 3, 3] (by decide)

/-- On valid iterators, dereferencing the pack succeeds with the list
of referenced values. -/
theorem derefAll_of_valid {V : Type} (its : List (Iter V))
    (h : ∀ it ∈ its, it.idx < it.seq.length) :
    derefAll its = some (its.filterMap Iter.deref) := by
  induction its with
  | nil => rfl
  | cons it rest ih =>
    have hit : it.idx < it.seq.length := h it (by simp)
    obtain ⟨v, hv⟩ : ∃ v, Iter.deref it = some v := by
      simp only [Iter.deref]
      exact Option.isSome_iff_exists.mp (by simp [List.getElem?_eq_getElem hit])
    have hrest : ∀ jt ∈ rest, jt.idx < jt.seq.length :=
      fun jt hj => h jt (List.mem_cons_of_mem _ hj)
    simp [derefAll, hv, ih hrest, List.filterMap_cons]

/-- C9: apply_deref_increment applies the callable to the values the
iterators referenced before the call (all valid iterators contribute,
in order) and afterwards every iterator in the tuple has been advanced
by exactly one position. -/
theorem apply_deref_increment_spec {V R : Type} (f : List V → R)
    (its : List (Iter V)) (h : ∀ it ∈ its, it.idx < it.seq.length) :
    (apply_deref_increment f its).1 = some (f (its.filterMap Iter.deref)) ∧
    (its.filterMap Iter.deref).length = its.length ∧
    (apply_deref_increment f its).2 =
      its.map (fun it => { it with idx := it.idx + 1 }) := by
  refine ⟨?_, ?_, rfl⟩
  · simp [apply_deref_increment, derefAll_of_valid its h]
  · induction its with
    | nil => rfl
    | cons it rest ih =>
      have hit : it.idx < it.seq.length := h it (by simp)
      obtain ⟨v, hv⟩ : ∃ v, Iter.deref it = some v := by
        simp only [Iter.deref]
        exact Option.isSome_iff_exists.mp (by simp [List.getElem?_eq_getElem hit])
      have hrest : ∀ jt ∈ rest, jt.idx < jt.seq.length :=
        fun jt hj => h jt (List.mem_cons_of_mem _ hj)
      simp [List.filterMap_cons, hv, ih hrest]

/-- Witness for C9: two iterators at the start of [1, 2] and [5], the
callable summing the referenced values: result 6, both advanced to 1. -/
theorem apply_deref_increment_spec_witness :
    (apply_deref_increment List.sum
      [Iter.mk [1, (2 : Nat)] 0, Iter.mk [5] 0]).1 =
      some (List.sum ([Iter.mk [1, (2 : Nat)] 0,
        Iter.mk [5] 0].filterMap Iter.deref)) ∧
    ([Iter.mk [1, (2 : Nat)] 0, Iter.mk [5] 0].filterMap Iter.deref).length = 2 ∧
    (apply_deref_increment List.sum
      [Iter.mk [1, (2 : Nat)] 0, Iter.mk [5] 0]).2 =
      [Iter.mk [1, (2 : Nat)] 1, Iter.mk [5] 1] := by
  have h := apply_deref_increment_spec List.sum
    [Iter.mk [1, (2 : Nat)] 0, Iter.mk [5] 0] (by decide)
  exact ⟨h.1, h.2.1, h.2.2⟩

/-- The TBB map run preserves the output length. -/
theorem tbbMapRun_length {B : Type} (rhs : Nat → Option B) (fo n : Nat)
    (out : List B) : (tbbMapRun rhs fo n out).length = out.length := by
  induction n generalizing out with
  | zero => rfl
  | succ m ih =>
    rw [tbbMapRun, List.range_succ, List.foldl_append]
    show (tbbMapBody rhs fo (tbbMapRun rhs fo m out) m).length = out.length
    rw [show ∀ o, (tbbMapBody rhs fo o m).length = o.length from ?_, ih]
    intro o
    unfold tbbMapBody
    cases rhs m <;> simp

/-- The TBB map run writes nothing outside the output index range
[fo, fo + n). -/
theorem tbbMapRun_outside {B : Type} (rhs : Nat → Option B) (fo n : Nat)
    (out : List B) (j : Nat) (hj : j < fo ∨ fo + n ≤ j) :
    (tbbMapRun rhs fo n out)[j]? = out[j]? := by
  induction n generalizing out with
  | zero => rfl
  | succ m ih =>
    rw [tbbMapRun, List.range_succ, List.foldl_append]
    show (tbbMapBody rhs fo (tbbMapRun rhs fo m out) m)[j]? = out[j]?
    have hne : fo + m ≠ j := by omega
    have hih := ih out (by omega)
    unfold tbbMapBody
    cases rhs m with
    | none => exact hih
    | some b => rw [List.getElem?_set_ne hne]; exact hih

/-- The TBB map run writes exactly the computed value at output index
fo + i, for every index i of the range with a defined right-hand side. -/
theorem tbbMapRun_inside {B : Type} (rhs : Nat → Option B) (fo n : Nat)
    (out : List B) (i : Nat) (b : B) (hi : i < n) (hr : rhs i = some b)
    (hlen : fo + n ≤ out.length) :
    (tbbMapRun rhs fo n out)[fo + i]? = some b := by
  induction n generalizing out with
  | zero => omega
  | succ m ih =>
    rw [tbbMapRun, List.range_succ, List.foldl_append]
    show (tbbMapBody rhs fo (tbbMapRun rhs fo m out) m)[fo + i]? = some b
    by_cases him : i = m
    · subst him
      unfold tbbMapBody
      rw [hr]
      rw [List.getElem?_set_self]
      rw [tbbMapRun_length]
      omega
    · have hlt : i < m := by omega
      have hih := ih out hlt (by omega)
      unfold tbbMapBody
      cases rhs m with
      | none => exact hih
      | some b2 =>
        rw [List.getElem?_set_ne (by omega)]
        exact hih

/-- Running the TBB map body over any permutation of the index range
(any parallel execution order of tbb::parallel_for) gives the same
output as the canonical ascending order: distinct indices write
distinct output cells. -/
theorem tbbMapRun_perm {B : Type} (rhs : Nat → Option B) (fo n : Nat)
    (out : List B) (p : List Nat) (hp : p.Perm (List.range n)) :
    p.foldl (tbbMapBody rhs fo) out = tbbMapRun rhs fo n out := by
  refine hp.foldl_eq' ?_ out
  intro x _ y _ z
  by_cases hxy : x = y
  · subst hxy; rfl
  · unfold tbbMapBody
    cases hx : rhs x with
    | none => cases hy : rhs y <;> rfl
    | some bx =>
      cases hy : rhs y with
      | none => rfl
      | some by2 => exact List.set_comm _ _ _ (by omega)

/-- C10: the TBB map writes, for every index i below last - first, op
applied to the i-th input element (or elements, shown at arity two)
into output position first_out + i; it writes no output position
outside [first_out, first_out + (last - first)); and for last = first
the output is unchanged. The body executions of tbb::parallel_for may
run in any order: every permutation of the index range produces the
same output (final conjunct). -/
theorem tbb_map_spec {A A2 B : Type} (inp : List A) (inp2 : List A2)
    (out : List B) (first last_ first2 firstOut : Nat) (op : A → B)
    (op2 : A → A2 → B)
    (hout : firstOut + (last_ - first) ≤ out.length) :
    (∀ (i : Nat) (x : A), i < last_ - first → inp[first + i]? = some x →
      (tbbMap inp first last_ firstOut op out)[firstOut + i]? = some (op x)) ∧
    (∀ (i : Nat) (x : A) (y : A2), i < last_ - first →
      inp[first + i]? = some x → inp2[first2 + i]? = some y →
      (tbbMap2 inp inp2 first last_ first2 firstOut op2 out)[firstOut + i]? =
        some (op2 x y)) ∧
    (∀ j : Nat, j < firstOut ∨ firstOut + (last_ - first) ≤ j →
      (tbbMap inp first last_ firstOut op out)[j]? = out[j]?) ∧
    (last_ = first → tbbMap inp first last_ firstOut op out = out) ∧
    (∀ p : List Nat, p.Perm (List.range (last_ - first)) →
      p.foldl (tbbMapBody (fun i => (inp[first + i]?).map op) firstOut) out =
        tbbMap inp first last_ firstOut op out) := by
  refine ⟨?_, ?_, ?_, ?_, ?_⟩
  · intro i x hi hx
    exact tbbMapRun_inside _ firstOut _ out i (op x) hi (by simp [hx]) hout
  · intro i x y hi hx hy
    refine tbbMapRun_inside _ firstOut _ out i (op2 x y) hi ?_ hout
    simp only [hx, hy]
  · intro j hj
    exact tbbMapRun_outside _ firstOut _ out j hj
  · intro hlf
    unfold tbbMap tbbMapRun
    rw [hlf]
    simp
  · intro p hp
    exact tbbMapRun_perm _ firstOut _ out p hp

/-- Witness for C10: input [3, 4, 5] and a second input [10, 20, 30],
doubling map into a 4-cell output at offset 1, checked at index 1, an
untouched position 0, the empty range, and the reversed execution
order. -/
theorem tbb_map_spec_witness :
    ((tbbMap [3, 4, (5 : Nat)] 0 3 1 (fun a => a * 2) [0, 0, 0, (0 : Nat)])[1 + 1]? =
      some (4 * 2)) ∧
    ((tbbMap2 [3, 4, (5 : Nat)] [10, 20, (30 : Nat)] 0 3 0 1
      (fun a b => a + b) [0, 0, 0, (0 : Nat)])[1 + 1]? = some (4 + 20)) ∧
    ((tbbMap [3, 4, (5 : Nat)] 0 3 1 (fun a => a * 2) [0, 0, 0, (0 : Nat)])[0]? =
      [0, 0, 0, (0 : Nat)][0]?) ∧
    (tbbMap [3, 4, (5 : Nat)] 2 2 1 (fun a => a * 2) [0, 0, 0, (0 : Nat)] =
      [0, 0, 0, (0 : Nat)]) ∧
    ([2, 1, 0].foldl
      (tbbMapBody (fun i => (([3, 4, (5 : Nat)])[0 + i]?).map (fun a => a * 2)) 1)
      [0, 0, 0, (0 : Nat)] =
      tbbMap [3, 4, (5 : Nat)] 0 3 1 (fun a => a * 2) [0, 0, 0, (0 : Nat)]) := by
  have h1 := tbb_map_spec [3, 4, (5 : Nat)] [10, 20, (30 : Nat)]
    [0, 0, 0, (0 : Nat)] 0 3 0 1 (fun a => a * 2) (fun a b => a + b)
    (by decide)
  have h2 := tbb_map_spec [3, 4, (5 : Nat)] [10, 20, (30 : Nat)]
    [0, 0, 0, (0 : Nat)] 2 2 0 1 (fun a => a * 2) (fun a b => a + b)
    (by decide)
  exact ⟨h1.1 1 4 (by decide) (by decide),
    h1.2.1 1 4 20 (by decide) (by decide) (by decide),
    h1.2.2.1 0 (Or.inl (by decide)),
    h2.2.2.2.1 rfl,
    h1.2.2.2.2 [2, 1, 0] (by decide)⟩

/-- C1: the claim states that for every input sequence and every
concurrency degree at least 1, with ordering enabled, the consumer
receives exactly the non-filtered values in original input order. It
fails on the code: with concurrency degree 4 (three worker threads),
the always-true predicate and input values 0..4, the schedule schedC1
is a legal execution of the keep worker stage (the first conjunct
states that every action is enabled in the operational model: pops
take the FIFO head of the generated queue, a worker pushes each popped
item before its next pop, and the run ends with every worker exited).
Worker 0 pops and pushes tags 0, 2, 4 while workers 1 and 2 hold tags
1 and 3 in flight, so the filtered queue receives tags in the order
0, 2, 4, 1, 3 followed by the three sentinels, and the consumer thread
then delivers [0, 1, 4, 3, 4]: the value 2 is lost and the value 4 is
delivered twice and before 3, because when item 1 arrives the buffer
holds tags 2 and 4, remove_if flags tag 2 and shifts the kept tag 4
forward, and the consumer then reads the stale tail cell (still
holding 4) instead of the released element 2. Degrees 2 and 3 keep the
buffer a consecutive run and mask the defect; degree 4 exposes it. -/
theorem keep_order_fidelity_violated :
    keepRun predTrue (keepInit inputC1 4) schedC1 =
      some { genQueue := [((none : Option Int), -1)],
             workers := [WState.finished, WState.finished, WState.finished],
             arrival := arrB } ∧
    consumerOutput 3 arrB = [0, 1, 4, 3, 4] ∧
    inputC1.filter predTrue = [0, 1, 2, 3, 4] ∧
    ([0, 1, 4, 3, 4] : List Int) ≠ [0, 1, 2, 3, 4] := by
  refine ⟨by decide, by decide, by decide, by decide⟩

/-- C2: the claim states that feeding the reorder-buffer consumer logic
the tagged items 0..K-1 in any permutation (sentinel last) releases
each present payload exactly once in ascending tag order, rescanning
the pending buffer to a fixpoint after every release. It fails on the
native consumer logic: on the permutation 1, 2, 4, 0, 3 of the tags
0..4 (payload = tag, one sentinel last) the consumer delivers
[0, 2, 4, 3, 4], dropping 1 and releasing 4 twice, out of order. -/
theorem reorder_buffer_reconstruction_violated :
    permArr.map Prod.snd = [1, 2, 4, 0, 3, -1] ∧
    ((permArr.take 5).map Prod.snd).Perm [0, 1, 2, 3, 4] ∧
    (∀ it ∈ permArr.take 5, it.1 ≠ none) ∧
    isSentinel ((none, -1) : Item Int) = true ∧
    consumerOutput 1 permArr = [0, 2, 4, 3, 4] ∧
    ([0, 2, 4, 3, 4] : List Int) ≠ [0, 1, 2, 3, 4] := by
  refine ⟨by decide, by decide, by decide, by decide, by decide, by decide⟩

/-- C3 counterexample: the claim states that every stage pushes exactly
one terminal sentinel onto its output queue regardless of the
concurrency degree W. In the native keep with W = 3, the legal
schedule schedC3 on the empty input runs both worker threads to
completion and each pushes its own sentinel onto the filtered queue
(the stage output), so that queue receives two sentinels, not one (the
consumer compensates by counting W - 1 sentinels). In the OpenMP farm
with W = 2, when both workers re-read the done_threads counter after
both increments (ranks 1, 2 with re-read values 2, 2: each re-read at
least its own rank), both re-reads return 2 and two sentinels are
pushed onto the output queue. -/
theorem exactly_one_sentinel_violated :
    keepRun predTrue (keepInit ([] : List Int) 3) schedC3 =
      some { genQueue := [((none : Option Int), -1)],
             workers := [WState.finished, WState.finished],
             arrival := [((none : Option Int), -1), ((none : Option Int), -1)] } ∧
    countSentinels [((none : Option Int), -1), ((none : Option Int), -1)] = 2 ∧
    ([1, 2] : List Nat).Perm (List.range' 1 2) ∧
    List.Forall₂ (fun r o => r ≤ o ∧ o ≤ 2) [1, 2] [2, 2] ∧
    ompFarmSentinelCount 2 [2, 2] = 2 ∧
    (2 : Nat) ≠ 1 := by
  refine ⟨by decide, by decide, by decide, ?_, by decide, by decide⟩
  exact List.Forall₂.cons (by decide)
    (List.Forall₂.cons (by decide) List.Forall₂.nil)

/-- C5 counterexample: the claim states that the generator appends one
terminal sentinel with tag -1 when the generator returns an absent
value. On input stream [7], the OpenMP pipeline generator pushes
(some 7, 0) and then the absent value with tag 1 (the running counter),
and never pushes any item with tag -1; the native keep generator pushes
the absent value with tag 1 and then W - 1 = 2 items tagged -1, one per
worker thread, not one. -/
theorem generator_sentinel_tag_violated :
    ompGeneratorRun 0 [(7 : Int)] = [(some 7, 0), (none, 1)] ∧
    countSentinels (ompGeneratorRun 0 [(7 : Int)]) = 0 ∧
    generatorRun 2 0 [(7 : Int)] = [(some 7, 0), (none, 1), (none, -1), (none, -1)] ∧
    countSentinels (generatorRun 2 0 [(7 : Int)]) = 2 := by
  refine ⟨by decide, by decide, by decide, by decide⟩

/-- C6 counterexample: the claim states that a concurrency degree below
1 is rejected (fail fast) before any worker is spawned. The FastFlow
policy setter is noexcept and stores any degree unchanged, so degrees 0
and -3 are accepted, and the native keep invoked at degree 0 simply
spawns zero workers and its consumer thread receives nothing; no
rejection happens anywhere. -/
theorem concurrency_degree_validation_absent :
    concurrency_degree (set_concurrency_degree ⟨4, true⟩ 0) = 0 ∧
    concurrency_degree (set_concurrency_degree ⟨4, true⟩ (-3)) = -3 ∧
    nativeWorkerCount 0 = 0 ∧
    consumerOutput (0 - 1) ([] : List (Item Int)) = [] := by
  refine ⟨by decide, by decide, by decide, by decide⟩

/-- C7 counterexample: the claim states that for every execution policy
the set of values delivered by discard is exactly the set of values for
which the predicate is false. With the always-false predicate (so every
value must be delivered), input values 0..4 and concurrency degree 4,
discard runs keep with the negated predicate; under the legal schedule
schedC1 (same operational model as the order-fidelity counterexample,
run here with the negated predicate the discard wrapper passes to keep)
the consumer delivers [0, 1, 4, 3, 4]: the value 2, for which the
predicate is false, is never delivered, so the delivered set is not the
predicate-false set. -/
theorem discard_delivered_set_violated :
    keepRun (fun v => !predFalse v) (keepInit inputC1 4) schedC1 =
      some { genQueue := [((none : Option Int), -1)],
             workers := [WState.finished, WState.finished, WState.finished],
             arrival := arrB } ∧
    consumerOutput 3 arrB = [0, 1, 4, 3, 4] ∧
    inputC1.filter (fun v => !predFalse v) = [0, 1, 2, 3, 4] ∧
    (2 : Int) ∈ inputC1.filter (fun v => !predFalse v) ∧
    (2 : Int) ∉ ([0, 1, 4, 3, 4] : List Int) := by
  refine ⟨by decide, by decide, by decide, by decide, by decide⟩

end grppi
